import Mathlib

/-!
Verification of the LPDDR5 simulation SoC (litedram, `src/litedram/phy/lpddr5/simsoc.py`):
the clock planner `get_clocks`, the rate-converter wiring of `SimSoC.__init__`
(clock mapping, forwarded PHY attributes), the timing table of the example module, and the
configuration handed to `DFITimingsChecker`.

Python dictionaries are modelled as insertion-ordered association lists with string keys:
assignment `d[k] = v` replaces the value in place when `k` is present and appends
otherwise, exactly like a Python dict.  Python f-strings such as `f"sys{ratio}x"`
render the integer `ratio` in decimal, which is `Nat.repr` here; the development
proves that this rendering is injective, so that distinct multipliers yield distinct
clock-domain names.

Components of the repository that are imported by `simsoc.py` but whose sources are not
available here (`DFIRateConverter.phy_wrapper` from `litedram/phy/dfi.py`, the internals
of `DFITimingsChecker` from `litedram/phy/model.py`) are modelled from the spec; their
doc comments say so explicitly.
-/

namespace LitedramLPDDR5

/-! ### Definitions -/

/-- Left inverse of `Nat.digitChar` on decimal digits. -/
def charDigit (c : Char) : Nat :=
  if c = '0' then 0 else if c = '1' then 1 else if c = '2' then 2 else
  if c = '3' then 3 else if c = '4' then 4 else if c = '5' then 5 else
  if c = '6' then 6 else if c = '7' then 7 else if c = '8' then 8 else 9

/-- Python dict assignment `d[k] = v`: replace the value in place when the key is
present, append the new binding otherwise. -/
def dictInsert {α : Type} (k : String) (v : α) :
    List (String × α) → List (String × α)
  | [] => [(k, v)]
  | (k', v') :: rest => if k = k' then (k, v) :: rest else (k', v') :: dictInsert k v rest

/-- Python dict access `d[k]` (as an `Option`). -/
def dictLookup {α : Type} (k : String) : List (String × α) → Option α
  | [] => none
  | (k', v) :: rest => if k = k' then some v else dictLookup k rest

/-- A value of the clocks dict: `dict(freq_hz=..)` or `dict(freq_hz=.., phase_deg=180)`.
An absent `phase_deg` is phase 0. -/
structure ClockEntry where
  freq_hz : Nat
  phase_deg : Nat := 0
deriving DecidableEq

/-- The f-string `f"sys{ratio}x"`. -/
def sysx (ratio : Nat) : String := "sys" ++ Nat.repr ratio ++ "x"

/-- The f-string `f"sys{ratio}x_180"`. -/
def sysx180 (ratio : Nat) : String := "sys" ++ Nat.repr ratio ++ "x_180"

/-- The planner `get_clocks(sys_clk_freq, wck_ck_ratio, dfi_converter_ratio)` (src lines 48-65):
starting from the `sys` entry, for each of the five derived-domain definitions insert a
phase-0 entry `sys{ratio}x` and a phase-180 entry `sys{ratio}x_180` at
`ratio*sys_clk_freq`. -/
def get_clocks (sys_clk_freq wck_ck_ratio dfi_converter_ratio : Nat) :
    List (String × ClockEntry) :=
  let defs : List (String × Nat) :=
    [("phy",     dfi_converter_ratio),
     ("ck",      dfi_converter_ratio),
     ("ck_ddr",  2*dfi_converter_ratio),
     ("ca_ddr",  4*dfi_converter_ratio),
     ("wck_ddr", 2*wck_ck_ratio*dfi_converter_ratio)]
  List.foldl
    (fun clocks nameRatio =>
      dictInsert (sysx180 nameRatio.2)
        { freq_hz := nameRatio.2 * sys_clk_freq, phase_deg := 180 }
        (dictInsert (sysx nameRatio.2)
          { freq_hz := nameRatio.2 * sys_clk_freq } clocks))
    [("sys", { freq_hz := sys_clk_freq })] defs

/-- The `clock_mapping` dict built in `SimSoC.__init__` (src lines 113-117): `sys` is
mapped to `sys{c}x`, and for `ratio` in `[2, 2*wck_ck_ratio]` both phases of
`sys{ratio}x` are mapped to the phases of `sys{dfi_converter_ratio*ratio}x`. -/
def clock_mapping (wck_ck_ratio dfi_converter_ratio : Nat) : List (String × String) :=
  List.foldl
    (fun m ratio =>
      dictInsert (sysx180 ratio) (sysx180 (dfi_converter_ratio * ratio))
        (dictInsert (sysx ratio) (sysx (dfi_converter_ratio * ratio)) m))
    [("sys", sysx dfi_converter_ratio)]
    [2, 2*wck_ck_ratio]

/-- The `phy_attrs` list passed to `DFIRateConverter.phy_wrapper` in `SimSoC.__init__`
(src lines 122-134). -/
def phy_attrs : List String :=
  ["pads", "memtype", "nranks", "databits", "addressbits", "bankbits", "nphases",
   "twck", "ser_latency", "des_latency", "out"]

/-- Modelled from the spec: `DFIRateConverter.phy_wrapper` (`litedram/phy/dfi.py`) is not
under `src/`.  Per spec §4.2, a PHY exposes named attributes, an externally observed
latency, and a map from signal group to the clock domain that drives it. -/
structure SimPhy (α : Type) where
  attr : String → Option α
  latency : Nat
  domain : String → String

/-- Modelled from the spec: `DFIRateConverter.phy_wrapper` (`litedram/phy/dfi.py`) is not
under `src/`.  Per spec §4.2 the wrapper re-exposes every attribute named in `attrs`
unchanged; the reset-alignment counter `serdes_reset_cnt` adds latency and
`cm` redirects clock-domain references only when actually rate-converting
(`ratio ≠ 1`); with `ratio = 1` it degenerates to a zero-overhead passthrough. -/
def phy_wrapper {α : Type} (ratio serdes_reset_cnt : Nat) (attrs : List String)
    (cm : String → String) (phy : SimPhy α) : SimPhy α where
  attr := fun name => if name ∈ attrs then phy.attr name else none
  latency := phy.latency + (if ratio = 1 then 0 else serdes_reset_cnt)
  domain := fun g => if ratio = 1 then phy.domain g else cm (phy.domain g)

/-- A sample inner PHY used to witness the passthrough property. -/
def samplePhy : SimPhy Nat where
  attr := fun _ => some 7
  latency := 4
  domain := fun g => g

/-- The `tccd` dict of `LPDDR5ExampleModule` (src line 80):
`{"write": (8, None), "masked-write": (32, None)}` — candidate column-to-column delays
as `(cycles, nanoseconds)` pairs. -/
def tccd : List (String × (Nat × Option ℚ)) :=
  [("write", (8, none)), ("masked-write", (32, none))]

/-- The `tCCD` argument of `LPDDR5ExampleModule.technology_timings` (src line 82):
the source passes `tccd["masked-write"]` unconditionally. -/
def technology_timings_tCCD : Option (Nat × Option ℚ) :=
  dictLookup "masked-write" tccd

/-- The `tCCD` entry of the timings table supplied to `DFITimingsChecker` in
`SimSoC.__init__` (src lines 182-195), as a function of the SimSoC `masked_write`
parameter: the table takes every timing from `sdram_module` (`LPDDR5ExampleModule`),
whose `tCCD` is `technology_timings_tCCD`; `masked_write` is passed only to the PHY
(src line 143) and never reaches the table. -/
def checker_timings_tCCD (masked_write : Bool) : Option (Nat × Option ℚ) :=
  technology_timings_tCCD

/-- src line 203: when `disable_delay` is active, the `logging_enabled` flag of the checker is
driven combinationally from `ddrctrl.init_done`. -/
def logging_enabled (init_done : Nat → Bool) : Nat → Bool := init_done

/-- Modelled from the spec: the internals of `DFITimingsChecker`
(`litedram/phy/model.py`) are not under `src/`.  Per spec §4.3/§7, each cycle a
violation verdict is computed from the protocol stream alone; the cycles whose
findings are actually reported are those where the enable flag is set. -/
def reportedCycles (enable violation : Nat → Bool) (horizon : Nat) : List Nat :=
  (List.range horizon).filter (fun n => enable n && violation n)

/-- Modelled from the spec: the violation findings computed by `DFITimingsChecker`
over a run, a function of the command stream only (independent of the enable). -/
def computedFindings (violation : Nat → Bool) (horizon : Nat) : List Nat :=
  (List.range horizon).filter violation

/-- Modelled from the spec: the binding-cycle-count rule of `DFITimingsChecker`
(`litedram/phy/model.py`, not under `src/`), spec §3: the binding requirement of a
timing parameter is `max(cycles, ceil(nanoseconds / tCK))`, an absent component
imposing no bound. -/
def binding_cycles (cycles : Option Nat) (nanoseconds : Option ℚ) (tCK : ℚ) : Nat :=
  max (cycles.getD 0) ((nanoseconds.map fun t => (⌈t / tCK⌉).toNat).getD 0)

/-- The `tCK` entry of the timings table built in `SimSoC.__init__` (src line 183):
`(1e9 / sys_clk_freq) / nphases`.  `dfi_converter_ratio` is in scope in
`SimSoC.__init__` but unused in this expression. -/
def checker_tCK (sys_clk_freq nphases : ℚ) (dfi_converter_ratio : Nat) : ℚ :=
  (1e9 / sys_clk_freq) / nphases

/-! ### Decimal rendering of naturals (Python `str(n)` = `Nat.repr n`) -/

theorem charDigit_digitChar : ∀ d : Fin 10, charDigit (Nat.digitChar d) = d := by decide

/-- Mapping a list of decimal digits through `Nat.digitChar` can be undone. -/
theorem map_charDigit_map_digitChar (l : List Nat) (hl : ∀ d ∈ l, d < 10) :
    (l.map Nat.digitChar).map charDigit = l := by
  induction l with
  | nil => rfl
  | cons d t iht =>
    simp only [List.map_cons, List.cons.injEq]
    refine ⟨?_, iht fun x hx => hl x (List.mem_cons_of_mem _ hx)⟩
    exact charDigit_digitChar ⟨d, hl d (List.mem_cons_self _ _)⟩

/-- With enough fuel, `Nat.toDigitsCore` produces the base-10 digits, most significant
first, in front of the accumulator. -/
theorem toDigitsCore_eq (n : Nat) : ∀ fuel : Nat, ∀ ds : List Char, n ≠ 0 → n < fuel →
    Nat.toDigitsCore 10 fuel n ds
      = ((Nat.digits 10 n).map Nat.digitChar).reverse ++ ds := by
  induction n using Nat.strong_induction_on with
  | _ n ih =>
    intro fuel ds hn hfuel
    match fuel with
    | 0 => omega
    | fuel + 1 =>
      rw [show Nat.toDigitsCore 10 (fuel + 1) n ds
            = if n / 10 = 0 then Nat.digitChar (n % 10) :: ds
              else Nat.toDigitsCore 10 fuel (n / 10) (Nat.digitChar (n % 10) :: ds)
          from rfl]
      rw [Nat.digits_def' (by norm_num : 1 < 10) (Nat.pos_of_ne_zero hn)]
      by_cases h : n / 10 = 0
      · rw [if_pos h, h, Nat.digits_zero]
        simp
      · rw [if_neg h]
        have hlt : n / 10 < n := Nat.div_lt_self (Nat.pos_of_ne_zero hn) (by norm_num)
        rw [ih (n / 10) hlt fuel (Nat.digitChar (n % 10) :: ds) h (by omega)]
        simp

theorem toDigits_ten_eq (n : Nat) (hn : n ≠ 0) :
    Nat.toDigits 10 n = ((Nat.digits 10 n).map Nat.digitChar).reverse := by
  rw [Nat.toDigits, toDigitsCore_eq n (n + 1) [] hn (Nat.lt_succ_self n), List.append_nil]

theorem toDigits_ten_zero : Nat.toDigits 10 0 = ['0'] := by decide

/-- Mapping the decimal digits of a number through `Nat.digitChar` loses no information. -/
theorem map_digitChar_digits_inj {m n : Nat}
    (h : (Nat.digits 10 m).map Nat.digitChar = (Nat.digits 10 n).map Nat.digitChar) :
    m = n := by
  have hm := map_charDigit_map_digitChar (Nat.digits 10 m)
    fun d hd => Nat.digits_lt_base (by norm_num) hd
  have hn := map_charDigit_map_digitChar (Nat.digits 10 n)
    fun d hd => Nat.digits_lt_base (by norm_num) hd
  have : Nat.digits 10 m = Nat.digits 10 n := by rw [← hm, ← hn, h]
  exact Nat.digits_inj_iff.mp this

/-- Only `0` renders as the single digit `'0'`. -/
theorem toDigits_ten_ne_singleton_zero (k : Nat) (hk : k ≠ 0) :
    Nat.toDigits 10 k ≠ ['0'] := by
  intro hcontra
  rw [toDigits_ten_eq k hk] at hcontra
  have h1 : (Nat.digits 10 k).map Nat.digitChar = ['0'] := by
    have := congrArg List.reverse hcontra
    simpa using this
  have h2 : Nat.digits 10 k = [0] := by
    have hrec := map_charDigit_map_digitChar (Nat.digits 10 k)
      fun d hd => Nat.digits_lt_base (by norm_num) hd
    rw [h1] at hrec
    rw [← hrec]
    decide
  have h3 := Nat.ofDigits_digits 10 k
  rw [h2] at h3
  simp [Nat.ofDigits] at h3
  exact hk h3.symm

/-- Decimal rendering of naturals is injective (Python: `str(a) == str(b)` iff `a == b`). -/
theorem natRepr_injective : Function.Injective Nat.repr := by
  intro m n h
  have h' : Nat.toDigits 10 m = Nat.toDigits 10 n := by
    have := congrArg String.data h
    simpa [Nat.repr, List.asString] using this
  by_cases hm : m = 0 <;> by_cases hn : n = 0
  · exact hm.trans hn.symm
  · subst hm
    rw [toDigits_ten_zero] at h'
    exact absurd h'.symm (toDigits_ten_ne_singleton_zero n hn)
  · subst hn
    rw [toDigits_ten_zero] at h'
    exact absurd h' (toDigits_ten_ne_singleton_zero m hm)
  · rw [toDigits_ten_eq m hm, toDigits_ten_eq n hn] at h'
    exact map_digitChar_digits_inj (List.reverse_injective h')

/-! ### Association-list (Python dict) lemmas -/

theorem mem_dictInsert {α : Type} {p : String × α} {k : String} {v : α}
    {l : List (String × α)} (h : p ∈ dictInsert k v l) : p = (k, v) ∨ p ∈ l := by
  induction l with
  | nil => simpa [dictInsert] using h
  | cons q rest ih =>
    obtain ⟨k', v'⟩ := q
    simp only [dictInsert] at h
    split at h
    · rcases List.mem_cons.mp h with h | h
      · exact Or.inl h
      · exact Or.inr (List.mem_cons_of_mem _ h)
    · rcases List.mem_cons.mp h with h | h
      · exact Or.inr (h ▸ List.mem_cons_self _ _)
      · rcases ih h with h' | h'
        · exact Or.inl h'
        · exact Or.inr (List.mem_cons_of_mem _ h')

theorem mem_keys_dictInsert {α : Type} {x k : String} {v : α} {l : List (String × α)}
    (h : x ∈ (dictInsert k v l).map Prod.fst) : x = k ∨ x ∈ l.map Prod.fst := by
  rcases List.mem_map.mp h with ⟨p, hp, rfl⟩
  rcases mem_dictInsert hp with rfl | hp'
  · exact Or.inl rfl
  · exact Or.inr (List.mem_map_of_mem _ hp')

/-- Dict assignment preserves distinctness of keys. -/
theorem nodup_keys_dictInsert {α : Type} (k : String) (v : α) :
    ∀ {l : List (String × α)}, (l.map Prod.fst).Nodup →
      ((dictInsert k v l).map Prod.fst).Nodup := by
  intro l
  induction l with
  | nil => intro _; simp [dictInsert]
  | cons q rest ih =>
    obtain ⟨k', v'⟩ := q
    intro h
    simp only [List.map_cons, List.nodup_cons] at h
    simp only [dictInsert]
    split
    · next heq =>
      subst heq
      simpa [List.nodup_cons] using h
    · next hne =>
      simp only [List.map_cons, List.nodup_cons]
      refine ⟨fun hc => ?_, ih h.2⟩
      rcases mem_keys_dictInsert hc with rfl | hc'
      · exact hne rfl
      · exact h.1 hc'

/-! ### Distinctness of the generated clock-domain names -/

@[simp] theorem sysx_inj {a b : Nat} : sysx a = sysx b ↔ a = b := by
  constructor
  · intro h
    apply natRepr_injective
    apply String.ext
    have h' := congrArg String.data h
    simp only [sysx, String.data_append] at h'
    exact List.append_cancel_left (List.append_cancel_right h')
  · rintro rfl; rfl

@[simp] theorem sysx180_inj {a b : Nat} : sysx180 a = sysx180 b ↔ a = b := by
  constructor
  · intro h
    apply natRepr_injective
    apply String.ext
    have h' := congrArg String.data h
    simp only [sysx180, String.data_append] at h'
    exact List.append_cancel_left (List.append_cancel_right h')
  · rintro rfl; rfl

@[simp] theorem sysx_ne_sys (a : Nat) : sysx a ≠ "sys" := by
  intro h
  have h' := congrArg (fun s => s.data.length) h
  simp only [sysx, String.data_append, List.length_append] at h'
  simp at h'
  omega

@[simp] theorem sysx180_ne_sys (a : Nat) : sysx180 a ≠ "sys" := by
  intro h
  have h' := congrArg (fun s => s.data.length) h
  simp only [sysx180, String.data_append, List.length_append] at h'
  simp at h'

@[simp] theorem sys_ne_sysx (a : Nat) : "sys" ≠ sysx a := (sysx_ne_sys a).symm

@[simp] theorem sys_ne_sysx180 (a : Nat) : "sys" ≠ sysx180 a := (sysx180_ne_sys a).symm

@[simp] theorem sysx_ne_sysx180 (a b : Nat) : sysx a ≠ sysx180 b := by
  intro h
  have h' := congrArg (fun s => s.data.reverse) h
  simp only [sysx, sysx180, String.data_append] at h'
  simp [List.reverse_append] at h'

@[simp] theorem sysx180_ne_sysx (a b : Nat) : sysx180 a ≠ sysx b :=
  (sysx_ne_sysx180 b a).symm

/-! ### Closed forms of the clock plan for the two supported `wck_ck_ratio` values -/

/-- With `wck_ck_ratio = 2` the quad-rate CA multiplier `4c` coincides with the
write-clock multiplier `2*2*c`, so the plan has 7 entries. -/
theorem get_clocks_w2 (f c : Nat) (hc : 1 ≤ c) :
    get_clocks f 2 c =
      [("sys", ⟨f, 0⟩),
       (sysx c, ⟨c*f, 0⟩), (sysx180 c, ⟨c*f, 180⟩),
       (sysx (2*c), ⟨2*c*f, 0⟩), (sysx180 (2*c), ⟨2*c*f, 180⟩),
       (sysx (4*c), ⟨4*c*f, 0⟩), (sysx180 (4*c), ⟨4*c*f, 180⟩)] := by
  have h1 : ¬(2*c = c) := by omega
  have h2 : ¬(4*c = c) := by omega
  have h3 : ¬(4*c = 2*c) := by omega
  simp [get_clocks, dictInsert, h1, h2, h3]

/-- With `wck_ck_ratio = 4` all four multipliers `c, 2c, 4c, 8c` are distinct,
so the plan has 9 entries. -/
theorem get_clocks_w4 (f c : Nat) (hc : 1 ≤ c) :
    get_clocks f 4 c =
      [("sys", ⟨f, 0⟩),
       (sysx c, ⟨c*f, 0⟩), (sysx180 c, ⟨c*f, 180⟩),
       (sysx (2*c), ⟨2*c*f, 0⟩), (sysx180 (2*c), ⟨2*c*f, 180⟩),
       (sysx (4*c), ⟨4*c*f, 0⟩), (sysx180 (4*c), ⟨4*c*f, 180⟩),
       (sysx (8*c), ⟨8*c*f, 0⟩), (sysx180 (8*c), ⟨8*c*f, 180⟩)] := by
  have h1 : ¬(2*c = c) := by omega
  have h2 : ¬(4*c = c) := by omega
  have h3 : ¬(4*c = 2*c) := by omega
  have h4 : ¬(8*c = c) := by omega
  have h5 : ¬(8*c = 2*c) := by omega
  have h6 : ¬(8*c = 4*c) := by omega
  simp [get_clocks, dictInsert, h1, h2, h3, h4, h5, h6]

/-- Every entry of the clock plan is the base `sys` entry or one of the eight derived
entries (for arbitrary ratios; with coinciding multipliers some alternatives repeat). -/
theorem get_clocks_mem_cases {f w c : Nat} {p : String × ClockEntry}
    (hp : p ∈ get_clocks f w c) :
    p = ("sys", ⟨f, 0⟩) ∨
    p = (sysx c, ⟨c*f, 0⟩) ∨ p = (sysx180 c, ⟨c*f, 180⟩) ∨
    p = (sysx (2*c), ⟨2*c*f, 0⟩) ∨ p = (sysx180 (2*c), ⟨2*c*f, 180⟩) ∨
    p = (sysx (4*c), ⟨4*c*f, 0⟩) ∨ p = (sysx180 (4*c), ⟨4*c*f, 180⟩) ∨
    p = (sysx (2*w*c), ⟨2*w*c*f, 0⟩) ∨ p = (sysx180 (2*w*c), ⟨2*w*c*f, 180⟩) := by
  simp only [get_clocks, List.foldl] at hp
  rcases mem_dictInsert hp with h | hp
  · subst h; simp
  rcases mem_dictInsert hp with h | hp
  · subst h; simp
  rcases mem_dictInsert hp with h | hp
  · subst h; simp
  rcases mem_dictInsert hp with h | hp
  · subst h; simp
  rcases mem_dictInsert hp with h | hp
  · subst h; simp
  rcases mem_dictInsert hp with h | hp
  · subst h; simp
  rcases mem_dictInsert hp with h | hp
  · subst h; simp
  rcases mem_dictInsert hp with h | hp
  · subst h; simp
  rcases mem_dictInsert hp with h | hp
  · subst h; simp
  rcases mem_dictInsert hp with h | hp
  · subst h; simp
  simp only [List.mem_singleton] at hp
  subst hp
  simp

/-- Closed form of `clock_mapping` for `wck_ck_ratio = 2`. -/
theorem clock_mapping_w2 (c : Nat) :
    clock_mapping 2 c =
      [("sys", sysx c),
       (sysx 2, sysx (c*2)), (sysx180 2, sysx180 (c*2)),
       (sysx 4, sysx (c*4)), (sysx180 4, sysx180 (c*4))] := by
  simp [clock_mapping, dictInsert]

/-- Closed form of `clock_mapping` for `wck_ck_ratio = 4`. -/
theorem clock_mapping_w4 (c : Nat) :
    clock_mapping 4 c =
      [("sys", sysx c),
       (sysx 2, sysx (c*2)), (sysx180 2, sysx180 (c*2)),
       (sysx 8, sysx (c*8)), (sysx180 8, sysx180 (c*8))] := by
  simp [clock_mapping, dictInsert]

/-- The unconverted plan (`dfi_converter_ratio = 1`), `wck_ck_ratio = 2`. -/
theorem get_clocks_w2_one (f : Nat) :
    get_clocks f 2 1 =
      [("sys", ⟨f, 0⟩),
       (sysx 1, ⟨f, 0⟩), (sysx180 1, ⟨f, 180⟩),
       (sysx 2, ⟨2*f, 0⟩), (sysx180 2, ⟨2*f, 180⟩),
       (sysx 4, ⟨4*f, 0⟩), (sysx180 4, ⟨4*f, 180⟩)] := by
  have h := get_clocks_w2 f 1 (le_refl 1)
  norm_num at h
  exact h

/-- The unconverted plan (`dfi_converter_ratio = 1`), `wck_ck_ratio = 4`. -/
theorem get_clocks_w4_one (f : Nat) :
    get_clocks f 4 1 =
      [("sys", ⟨f, 0⟩),
       (sysx 1, ⟨f, 0⟩), (sysx180 1, ⟨f, 180⟩),
       (sysx 2, ⟨2*f, 0⟩), (sysx180 2, ⟨2*f, 180⟩),
       (sysx 4, ⟨4*f, 0⟩), (sysx180 4, ⟨4*f, 180⟩),
       (sysx 8, ⟨8*f, 0⟩), (sysx180 8, ⟨8*f, 180⟩)] := by
  have h := get_clocks_w4 f 1 (le_refl 1)
  norm_num at h
  exact h

/-! ### Claims -/

/-- C7: for all base frequencies `f` and ratios `(w, c)`, every entry of the plan
returned by `get_clocks` has a frequency that is an integer multiplier times `f`,
no two entries share a name, and the name of each derived entry embeds its multiplier
(`sys{r}x` / `sys{r}x_180` at frequency `r*f`), so plans for distinct ratio
configurations never collide in naming. -/
theorem clock_plan_invariants (f w c : Nat) :
    (∀ p ∈ get_clocks f w c, ∃ m, p.2.freq_hz = m * f) ∧
    ((get_clocks f w c).map Prod.fst).Nodup ∧
    (∀ p ∈ get_clocks f w c,
      p.1 = "sys" ∨
      ∃ r, (r = c ∨ r = 2*c ∨ r = 4*c ∨ r = 2*w*c) ∧
        ((p.1 = sysx r ∧ p.2 = ⟨r*f, 0⟩) ∨ (p.1 = sysx180 r ∧ p.2 = ⟨r*f, 180⟩))) := by
  refine ⟨?_, ?_, ?_⟩
  · intro p hp
    rcases get_clocks_mem_cases hp with rfl | rfl | rfl | rfl | rfl | rfl | rfl | rfl | rfl
    exacts [⟨1, (one_mul f).symm⟩, ⟨c, rfl⟩, ⟨c, rfl⟩, ⟨2*c, rfl⟩, ⟨2*c, rfl⟩,
      ⟨4*c, rfl⟩, ⟨4*c, rfl⟩, ⟨2*w*c, rfl⟩, ⟨2*w*c, rfl⟩]
  · simp only [get_clocks, List.foldl]
    apply nodup_keys_dictInsert
    apply nodup_keys_dictInsert
    apply nodup_keys_dictInsert
    apply nodup_keys_dictInsert
    apply nodup_keys_dictInsert
    apply nodup_keys_dictInsert
    apply nodup_keys_dictInsert
    apply nodup_keys_dictInsert
    apply nodup_keys_dictInsert
    apply nodup_keys_dictInsert
    simp
  · intro p hp
    rcases get_clocks_mem_cases hp with rfl | rfl | rfl | rfl | rfl | rfl | rfl | rfl | rfl
    · exact Or.inl rfl
    · exact Or.inr ⟨c, Or.inl rfl, Or.inl ⟨rfl, rfl⟩⟩
    · exact Or.inr ⟨c, Or.inl rfl, Or.inr ⟨rfl, rfl⟩⟩
    · exact Or.inr ⟨2*c, Or.inr (Or.inl rfl), Or.inl ⟨rfl, rfl⟩⟩
    · exact Or.inr ⟨2*c, Or.inr (Or.inl rfl), Or.inr ⟨rfl, rfl⟩⟩
    · exact Or.inr ⟨4*c, Or.inr (Or.inr (Or.inl rfl)), Or.inl ⟨rfl, rfl⟩⟩
    · exact Or.inr ⟨4*c, Or.inr (Or.inr (Or.inl rfl)), Or.inr ⟨rfl, rfl⟩⟩
    · exact Or.inr ⟨2*w*c, Or.inr (Or.inr (Or.inr rfl)), Or.inl ⟨rfl, rfl⟩⟩
    · exact Or.inr ⟨2*w*c, Or.inr (Or.inr (Or.inr rfl)), Or.inr ⟨rfl, rfl⟩⟩

theorem clock_plan_invariants_witness :
    ((sysx 3, (⟨15, 0⟩ : ClockEntry)) ∈ get_clocks 5 2 3) ∧
    (∃ m, (15 : Nat) = m * 5) ∧
    ((get_clocks 5 2 3).map Prod.fst).Nodup := by
  have h := clock_plan_invariants 5 2 3
  have hmem : (sysx 3, (⟨15, 0⟩ : ClockEntry)) ∈ get_clocks 5 2 3 := by decide
  exact ⟨hmem, h.1 _ hmem, h.2.1⟩

/-- C10: for every base frequency and `converter_ratio c ≥ 1`, the plan has exactly
7 named entries when `wck_ck_ratio = 2` and exactly 9 when `wck_ck_ratio = 4`
(the base `sys` entry plus one 0°/180° pair per distinct multiplier value; with
`wck_ck_ratio = 2` the CA multiplier `4c` coincides with the WCK multiplier `2*2*c`). -/
theorem clock_plan_entry_counts (f c : Nat) (hc : 1 ≤ c) :
    (get_clocks f 2 c).length = 7 ∧ (get_clocks f 4 c).length = 9 := by
  rw [get_clocks_w2 f c hc, get_clocks_w4 f c hc]
  exact ⟨rfl, rfl⟩

theorem clock_plan_entry_counts_witness :
    1 ≤ 3 ∧ (get_clocks 5 2 3).length = 7 ∧ (get_clocks 5 4 3).length = 9 :=
  ⟨by decide, clock_plan_entry_counts 5 3 (by decide)⟩

/-- C1: for every base frequency `f`, `wck_ck_ratio w ∈ {2, 4}` and
`converter_ratio c ≥ 1`, the plan contains the PHY domain `sys{c}x` at `c*f`, the
command-clock double-rate domain `sys{2c}x` at `2*c*f`, the command/address quad-rate
domain `sys{4c}x` at `4*c*f` and the write-clock double-rate domain `sys{2wc}x` at
`2*w*c*f`, and these four multiples of `f` are exactly the frequencies of all derived
(non-`sys`) entries. -/
theorem clock_plan_four_multipliers (f w c : Nat) (hw : w = 2 ∨ w = 4) (hc : 1 ≤ c) :
    dictLookup (sysx c) (get_clocks f w c) = some ⟨c*f, 0⟩ ∧
    dictLookup (sysx (2*c)) (get_clocks f w c) = some ⟨2*c*f, 0⟩ ∧
    dictLookup (sysx (4*c)) (get_clocks f w c) = some ⟨4*c*f, 0⟩ ∧
    dictLookup (sysx (2*w*c)) (get_clocks f w c) = some ⟨2*w*c*f, 0⟩ ∧
    ∀ p ∈ get_clocks f w c, p.1 ≠ "sys" →
      p.2.freq_hz = c*f ∨ p.2.freq_hz = 2*c*f ∨ p.2.freq_hz = 4*c*f ∨
        p.2.freq_hz = 2*w*c*f := by
  have h1 : ¬(2*c = c) := by omega
  have h2 : ¬(4*c = c) := by omega
  have h3 : ¬(4*c = 2*c) := by omega
  rcases hw with rfl | rfl
  · have h22 : 2*2*c = 4*c := by ring
    rw [h22, get_clocks_w2 f c hc]
    refine ⟨?_, ?_, ?_, ?_, ?_⟩
    · simp [dictLookup]
    · simp [dictLookup, h1]
    · simp [dictLookup, h2, h3]
    · simp [dictLookup, h2, h3]
    · intro p hp hne
      simp only [List.mem_cons, List.not_mem_nil, or_false] at hp
      rcases hp with rfl | rfl | rfl | rfl | rfl | rfl | rfl
      · exact absurd rfl hne
      all_goals simp
  · have h24 : 2*4*c = 8*c := by ring
    rw [h24, get_clocks_w4 f c hc]
    have h4 : ¬(8*c = c) := by omega
    have h5 : ¬(8*c = 2*c) := by omega
    have h6 : ¬(8*c = 4*c) := by omega
    refine ⟨?_, ?_, ?_, ?_, ?_⟩
    · simp [dictLookup]
    · simp [dictLookup, h1]
    · simp [dictLookup, h2, h3]
    · simp [dictLookup, h4, h5, h6]
    · intro p hp hne
      simp only [List.mem_cons, List.not_mem_nil, or_false] at hp
      rcases hp with rfl | rfl | rfl | rfl | rfl | rfl | rfl | rfl | rfl
      · exact absurd rfl hne
      all_goals simp

theorem clock_plan_four_multipliers_witness :
    ((2 : Nat) = 2 ∨ (2 : Nat) = 4) ∧ 1 ≤ 3 ∧
    dictLookup (sysx 3) (get_clocks 5 2 3) = some ⟨15, 0⟩ ∧
    dictLookup (sysx 6) (get_clocks 5 2 3) = some ⟨30, 0⟩ ∧
    dictLookup (sysx 12) (get_clocks 5 2 3) = some ⟨60, 0⟩ := by
  have h := clock_plan_four_multipliers 5 2 3 (Or.inl rfl) (by decide)
  refine ⟨Or.inl rfl, by decide, ?_, ?_, ?_⟩
  · have := h.1; revert this; decide
  · have := h.2.1; revert this; decide
  · have := h.2.2.1; revert this; decide

/-- C2: for every multiplier value `r` computed by the clock planner
(`r ∈ {c, 2c, 4c, 2wc}`), the plan contains exactly two entries carrying `r` in their
name: `sys{r}x` at phase 0° and `sys{r}x_180` at phase 180°, both at `r*f`. -/
theorem clock_plan_phase_pairs (f w c : Nat) (hw : w = 2 ∨ w = 4) (hc : 1 ≤ c) :
    ∀ r, (r = c ∨ r = 2*c ∨ r = 4*c ∨ r = 2*w*c) →
      (get_clocks f w c).filter (fun p => p.1 == sysx r || p.1 == sysx180 r)
        = [(sysx r, ⟨r*f, 0⟩), (sysx180 r, ⟨r*f, 180⟩)] := by
  intro r hr
  have hA : ¬(c = 2*c) := by omega
  have hB : ¬(c = 4*c) := by omega
  have hC : ¬(2*c = c) := by omega
  have hD : ¬(2*c = 4*c) := by omega
  have hE : ¬(4*c = c) := by omega
  have hF : ¬(4*c = 2*c) := by omega
  rcases hw with rfl | rfl
  · rw [show 2*2*c = 4*c by ring] at hr
    rw [get_clocks_w2 f c hc]
    rcases hr with rfl | rfl | rfl | rfl <;>
      simp [List.filter_cons, hA, hB, hC, hD, hE, hF]
  · have hG : ¬(c = 8*c) := by omega
    have hH : ¬(2*c = 8*c) := by omega
    have hI : ¬(4*c = 8*c) := by omega
    have hJ : ¬(8*c = c) := by omega
    have hK : ¬(8*c = 2*c) := by omega
    have hL : ¬(8*c = 4*c) := by omega
    rw [show 2*4*c = 8*c by ring] at hr
    rw [get_clocks_w4 f c hc]
    rcases hr with rfl | rfl | rfl | rfl <;>
      simp [List.filter_cons, hA, hB, hC, hD, hE, hF, hG, hH, hI, hJ, hK, hL]

theorem clock_plan_phase_pairs_witness :
    ((2 : Nat) = 2 ∨ (2 : Nat) = 4) ∧ 1 ≤ 3 ∧
    (get_clocks 5 2 3).filter (fun p => p.1 == sysx 6 || p.1 == sysx180 6)
      = [(sysx 6, ⟨30, 0⟩), (sysx180 6, ⟨30, 180⟩)] := by
  have h := clock_plan_phase_pairs 5 2 3 (Or.inl rfl) (by decide) 6 (Or.inr (Or.inl rfl))
  exact ⟨Or.inl rfl, by decide, by revert h; decide⟩

/-- C4: for `w ∈ {2, 4}` and `c ≥ 1`, every target name of the adapter
`clock_mapping` exists in the plan returned by `get_clocks` for the same
configuration, and the target frequency is `c` times the frequency its source name
has in the unconverted plan (`dfi_converter_ratio = 1`). -/
theorem clock_mapping_consistent (f w c : Nat) (hw : w = 2 ∨ w = 4) (hc : 1 ≤ c) :
    ∀ p ∈ clock_mapping w c, ∃ e e' : ClockEntry,
      dictLookup p.2 (get_clocks f w c) = some e ∧
      dictLookup p.1 (get_clocks f w 1) = some e' ∧
      e.freq_hz = c * e'.freq_hz := by
  have h1 : ¬(2*c = c) := by omega
  have h2 : ¬(4*c = c) := by omega
  have h3 : ¬(4*c = 2*c) := by omega
  intro p hp
  rcases hw with rfl | rfl
  · rw [clock_mapping_w2] at hp
    rw [get_clocks_w2 f c hc, get_clocks_w2_one f]
    simp only [List.mem_cons, List.not_mem_nil, or_false] at hp
    rcases hp with rfl | rfl | rfl | rfl | rfl
    · exact ⟨⟨c*f, 0⟩, ⟨f, 0⟩, by simp [dictLookup], by simp [dictLookup], rfl⟩
    · refine ⟨⟨2*c*f, 0⟩, ⟨2*f, 0⟩, ?_, ?_, show 2*c*f = c*(2*f) by ring⟩
      · show dictLookup (sysx (c*2)) _ = _
        rw [show c*2 = 2*c by ring]
        simp [dictLookup, h1]
      · simp [dictLookup]
    · refine ⟨⟨2*c*f, 180⟩, ⟨2*f, 180⟩, ?_, ?_, show 2*c*f = c*(2*f) by ring⟩
      · show dictLookup (sysx180 (c*2)) _ = _
        rw [show c*2 = 2*c by ring]
        simp [dictLookup, h1]
      · simp [dictLookup]
    · refine ⟨⟨4*c*f, 0⟩, ⟨4*f, 0⟩, ?_, ?_, show 4*c*f = c*(4*f) by ring⟩
      · show dictLookup (sysx (c*4)) _ = _
        rw [show c*4 = 4*c by ring]
        simp [dictLookup, h2, h3]
      · simp [dictLookup]
    · refine ⟨⟨4*c*f, 180⟩, ⟨4*f, 180⟩, ?_, ?_, show 4*c*f = c*(4*f) by ring⟩
      · show dictLookup (sysx180 (c*4)) _ = _
        rw [show c*4 = 4*c by ring]
        simp [dictLookup, h2, h3]
      · simp [dictLookup]
  · have h4 : ¬(8*c = c) := by omega
    have h5 : ¬(8*c = 2*c) := by omega
    have h6 : ¬(8*c = 4*c) := by omega
    rw [clock_mapping_w4] at hp
    rw [get_clocks_w4 f c hc, get_clocks_w4_one f]
    simp only [List.mem_cons, List.not_mem_nil, or_false] at hp
    rcases hp with rfl | rfl | rfl | rfl | rfl
    · exact ⟨⟨c*f, 0⟩, ⟨f, 0⟩, by simp [dictLookup], by simp [dictLookup], rfl⟩
    · refine ⟨⟨2*c*f, 0⟩, ⟨2*f, 0⟩, ?_, ?_, show 2*c*f = c*(2*f) by ring⟩
      · show dictLookup (sysx (c*2)) _ = _
        rw [show c*2 = 2*c by ring]
        simp [dictLookup, h1]
      · simp [dictLookup]
    · refine ⟨⟨2*c*f, 180⟩, ⟨2*f, 180⟩, ?_, ?_, show 2*c*f = c*(2*f) by ring⟩
      · show dictLookup (sysx180 (c*2)) _ = _
        rw [show c*2 = 2*c by ring]
        simp [dictLookup, h1]
      · simp [dictLookup]
    · refine ⟨⟨8*c*f, 0⟩, ⟨8*f, 0⟩, ?_, ?_, show 8*c*f = c*(8*f) by ring⟩
      · show dictLookup (sysx (c*8)) _ = _
        rw [show c*8 = 8*c by ring]
        simp [dictLookup, h4, h5, h6]
      · simp [dictLookup]
    · refine ⟨⟨8*c*f, 180⟩, ⟨8*f, 180⟩, ?_, ?_, show 8*c*f = c*(8*f) by ring⟩
      · show dictLookup (sysx180 (c*8)) _ = _
        rw [show c*8 = 8*c by ring]
        simp [dictLookup, h4, h5, h6]
      · simp [dictLookup]

theorem clock_mapping_consistent_witness :
    ((2 : Nat) = 2 ∨ (2 : Nat) = 4) ∧ 1 ≤ 3 ∧
    ((sysx 2, sysx 6) ∈ clock_mapping 2 3) ∧
    (∃ e e' : ClockEntry,
      dictLookup (sysx 6) (get_clocks 5 2 3) = some e ∧
      dictLookup (sysx 2) (get_clocks 5 2 1) = some e' ∧
      e.freq_hz = 3 * e'.freq_hz) := by
  have hmem : (sysx 2, sysx 6) ∈ clock_mapping 2 3 := by decide
  have h := clock_mapping_consistent 5 2 3 (Or.inl rfl) (by decide) (sysx 2, sysx 6) hmem
  exact ⟨Or.inl rfl, by decide, hmem, h⟩

/-- C3 counterexample: the tCCD entry of the timings table supplied to
`DFITimingsChecker` is the same for `masked_write = false` and `masked_write = true`,
refuting the claim that the enforced column-to-column delay depends on which write
form is used or on the `masked_write` flag. -/
theorem checker_tCCD_not_flag_dependent :
    checker_timings_tCCD false = checker_timings_tCCD true := rfl

/-- C3 (amended): the module defines distinct candidate tCCD values —
`tccd["write"] = (8, None)` and `tccd["masked-write"] = (32, None)` — but the timings
table supplied to `DFITimingsChecker` always carries the masked-write value
`(32, None)`, regardless of the `masked_write` flag. -/
theorem checker_tCCD_always_masked_write_value :
    (∀ b : Bool, checker_timings_tCCD b = some (32, none)) ∧
    dictLookup "write" tccd = some (8, none) ∧
    dictLookup "masked-write" tccd = some (32, none) := by
  refine ⟨fun b => by cases b <;> decide, by decide, by decide⟩

/-- C5: the adapter produced by wrapping the PHY with `ratio = 1` is observationally
identical to the unwrapped PHY: every attribute in the forwarded list has the same
value, no extra latency is introduced, and clock-domain references are not remapped. -/
theorem rate_converter_ratio_one_passthrough {α : Type} (serdes_reset_cnt : Nat)
    (cm : String → String) (phy : SimPhy α) :
    (∀ name ∈ phy_attrs,
       (phy_wrapper 1 serdes_reset_cnt phy_attrs cm phy).attr name = phy.attr name) ∧
    (phy_wrapper 1 serdes_reset_cnt phy_attrs cm phy).latency = phy.latency ∧
    (∀ g, (phy_wrapper 1 serdes_reset_cnt phy_attrs cm phy).domain g = phy.domain g) := by
  refine ⟨fun name hname => ?_, ?_, fun g => ?_⟩
  · simp [phy_wrapper, hname]
  · simp [phy_wrapper]
  · simp [phy_wrapper]

theorem rate_converter_ratio_one_passthrough_witness :
    ("pads" ∈ phy_attrs) ∧
    (phy_wrapper 1 0 phy_attrs (fun s => s) samplePhy).attr "pads"
      = samplePhy.attr "pads" ∧
    (phy_wrapper 1 0 phy_attrs (fun s => s) samplePhy).latency = samplePhy.latency ∧
    (phy_wrapper 1 0 phy_attrs (fun s => s) samplePhy).domain "sys"
      = samplePhy.domain "sys" := by
  have h := @rate_converter_ratio_one_passthrough Nat 0 (fun s => s) samplePhy
  exact ⟨by decide, h.1 "pads" (by decide), h.2.1, h.2.2 "sys"⟩

/-- C6: while the violation-reporting enable (`init_done` wired through
`logging_enabled` when `disable_delay` is active) is false, detected violations are
computed but not reported; every violation occurring at a cycle where the enable is
true is reported; a cycle from the disabled period is never reported, for any horizon
(enabling later never reports it retroactively). -/
theorem checker_violation_gating (init_done violation : Nat → Bool) (horizon n : Nat)
    (hn : n < horizon) :
    (init_done n = false →
       n ∉ reportedCycles (logging_enabled init_done) violation horizon ∧
       (violation n = true → n ∈ computedFindings violation horizon)) ∧
    (init_done n = true → violation n = true →
       n ∈ reportedCycles (logging_enabled init_done) violation horizon) := by
  constructor
  · intro hd
    constructor
    · intro hmem
      rw [reportedCycles, List.mem_filter] at hmem
      simp [logging_enabled, hd] at hmem
    · intro hv
      rw [computedFindings, List.mem_filter]
      exact ⟨List.mem_range.mpr hn, hv⟩
  · intro hd hv
    rw [reportedCycles, List.mem_filter]
    refine ⟨List.mem_range.mpr hn, ?_⟩
    simp [logging_enabled, hd, hv]

theorem checker_violation_gating_witness :
    3 < 10 ∧ (fun k => decide (5 ≤ k)) 3 = false ∧
    (3 ∉ reportedCycles (logging_enabled (fun k => decide (5 ≤ k))) (fun _ => true) 10 ∧
     3 ∈ computedFindings (fun _ => true) 10) ∧
    7 ∈ reportedCycles (logging_enabled (fun k => decide (5 ≤ k))) (fun _ => true) 10 := by
  have h3 := checker_violation_gating (fun k => decide (5 ≤ k)) (fun _ => true) 10 3
    (by decide)
  have h7 := checker_violation_gating (fun k => decide (5 ≤ k)) (fun _ => true) 10 7
    (by decide)
  refine ⟨by decide, by decide, ?_, ?_⟩
  · have h := h3.1 (by decide)
    exact ⟨h.1, h.2 rfl⟩
  · exact h7.2 (by decide) rfl

/-- C8: the binding cycle requirement of a timing parameter is
`max(cycles, ceil(nanoseconds / tCK))`, an absent component imposing no bound:
cycles=3 and ns=10 at a 2 ns period give 5; cycles absent and ns=4 at 2 ns give 2. -/
theorem binding_cycles_spec :
    binding_cycles (some 3) (some 10) 2 = 5 ∧
    binding_cycles none (some 4) 2 = 2 ∧
    (∀ k : Nat, ∀ t : ℚ, binding_cycles (some k) none t = k) ∧
    (∀ q t : ℚ, binding_cycles none (some q) t = (⌈q / t⌉).toNat) := by
  refine ⟨?_, ?_, fun k t => ?_, fun q t => ?_⟩
  · simp [binding_cycles, show ((10:ℚ) / 2) = ((5:ℤ):ℚ) by norm_num, Int.ceil_intCast]
  · simp [binding_cycles, show ((4:ℚ) / 2) = ((2:ℤ):ℚ) by norm_num, Int.ceil_intCast]
  · simp [binding_cycles]
  · simp [binding_cycles]

/-- C9: the tCK value passed to `DFITimingsChecker` equals
`(1e9 / sys_clk_freq) / nphases` — the system clock period in nanoseconds divided by
the number of DFI phases — and does not depend on `dfi_converter_ratio`. -/
theorem checker_tCK_formula (sys_clk_freq nphases : ℚ) (r r' : Nat) :
    checker_tCK sys_clk_freq nphases r = (10^9 / sys_clk_freq) / nphases ∧
    checker_tCK sys_clk_freq nphases r = checker_tCK sys_clk_freq nphases r' := by
  constructor
  · norm_num [checker_tCK]
  · rfl

end LitedramLPDDR5
